import Mathlib

/-!
Verification of the feature-extraction engine of `gtda/diagrams/features.py`
(persistence-diagram vectorization: `PersistenceEntropy`, `Amplitude`, `ATOL`).

The embedding is generic over a linear ordered field `K` standing for the
machine floating-point numbers; IEEE special values are modelled by the
wrapper type `RFloat K` with explicit `nan`, `inf` and `ninf` values.  The
transcendental routines of the numeric libraries (`np.log2`, float powers,
`sqrt` inside Euclidean distances) are abstracted as function parameters,
constrained in each theorem by exactly the algebraic facts the claim needs;
the metric kernels of `Amplitude` and the contrast/clustering callables of
`ATOL` are pluggable black boxes in the source and are abstracted likewise.
All definitions are computable, so concrete runs can be checked on `K = ℚ`.
-/

set_option linter.unusedVariables false

/-- Model of an IEEE floating-point value over an ordered field `K`:
either a finite value, or one of the special values NaN, +inf, -inf.
The sign of zero is not modelled. -/
inductive RFloat (K : Type) where
  | fin (x : K)
  | nan
  | inf
  | ninf
deriving DecidableEq, Repr

/-- IEEE division on modelled floats: 0/0 and inf/inf give NaN, x/0 gives a
signed infinity for finite x ≠ 0, finite/infinite gives 0. -/
def rdiv {K : Type} [LinearOrderedField K] : RFloat K → RFloat K → RFloat K
  | .nan, _ => .nan
  | .fin _, .nan => .nan
  | .inf, .nan => .nan
  | .ninf, .nan => .nan
  | .fin a, .fin b =>
      if b = 0 then (if a = 0 then .nan else if 0 < a then .inf else .ninf)
      else .fin (a / b)
  | .fin _, .inf => .fin 0
  | .fin _, .ninf => .fin 0
  | .inf, .fin b => if 0 ≤ b then .inf else .ninf
  | .ninf, .fin b => if 0 ≤ b then .ninf else .inf
  | .inf, .inf => .nan
  | .inf, .ninf => .nan
  | .ninf, .inf => .nan
  | .ninf, .ninf => .nan

/-- The largest finite IEEE double, `(2 - 2^-52) * 2^1023 = 2^1024 - 2^971`,
i.e. `np.finfo(np.float64).max`. -/
def maxFloat (K : Type) [LinearOrderedField K] : K := 2 ^ (1024 : ℕ) - 2 ^ (971 : ℕ)

/-- The lowest finite IEEE double, `np.finfo(np.float64).min`. -/
def minFloat (K : Type) [LinearOrderedField K] : K := -(2 ^ (1024 : ℕ) - 2 ^ (971 : ℕ))

/-- `np.nan_to_num(x, nan=v)` on one value: NaN becomes `v`, +inf becomes the
largest finite float, -inf becomes the lowest finite float, finite values are
unchanged. -/
def nanToNum {K : Type} [LinearOrderedField K] (v : K) : RFloat K → RFloat K
  | .nan => .fin v
  | .inf => .fin (maxFloat K)
  | .ninf => .fin (minFloat K)
  | .fin a => .fin a

/-- The `nan_fill_value` post-processing of `PersistenceEntropy`: when the
parameter is a float, apply `np.nan_to_num` with it; when it is `None`, leave
the values alone (`features.py`, lines 97-98). -/
def applyNanFill {K : Type} [LinearOrderedField K] (fill : Option K) (x : RFloat K) :
    RFloat K :=
  match fill with
  | some v => nanToNum v x
  | none => x

/-- `np.log2` on a modelled float argument: `-inf` at zero, NaN on negative
inputs, and an abstract finite value `log2 s` for positive `s`. -/
def npLog2 {K : Type} [LinearOrderedField K] (log2 : K → K) (s : K) : RFloat K :=
  if s = 0 then .ninf else if s < 0 then .nan else .fin (log2 s)

/-- One birth-death-dimension triple `[b, d, q]` of a persistence diagram. -/
structure Pt (K : Type) where
  b : K
  d : K
  q : ℤ
deriving DecidableEq, Repr

/-- Modelled from the spec (section 4.1, "Diagram partitioner"): the helper
`_subdiagrams` of `gtda/diagrams/_utils.py` is not part of the provided
source; per the spec it keeps the triples whose dimension tag equals the
chosen value, preserving relative order. -/
def subdiagrams {K : Type} (diag : List (Pt K)) (dim : ℤ) : List (Pt K) :=
  diag.filter (fun p => decide (p.q = dim))

/-- Modelled from the spec (section 4.1): `_subdiagrams` with
`remove_dim=True` additionally drops the dimension column, yielding plain
(birth, death) pairs. -/
def subdiagramPoints {K : Type} (diag : List (Pt K)) (dim : ℤ) : List (K × K) :=
  (subdiagrams diag dim).map (fun p => (p.b, p.d))

/-- The slice lengths produced by `sklearn.utils.gen_even_slices(n, k)`:
`k` near-equal contiguous slices of `n` items, the first `n % k` slices one
item longer, zero-length slices skipped. -/
def evenSliceLens (n k : ℕ) : List ℕ :=
  ((List.range k).map (fun i => n / k + if i < n % k then 1 else 0)).filter
    (fun l => decide (0 < l))

/-- Split a list into consecutive chunks of the given lengths. -/
def splitLens {α : Type} : List ℕ → List α → List (List α)
  | [], _ => []
  | l :: ls, xs => xs.take l :: splitLens ls (xs.drop l)

/-- The batch slices over which `joblib.Parallel` work units are generated,
following `gen_even_slices(len(X), effective_n_jobs(n_jobs))`. -/
def slicesOf {α : Type} (xs : List α) (k : ℕ) : List (List α) :=
  splitLens (evenSliceLens xs.length k) xs

theorem sum_filter_pos (l : List ℕ) :
    (l.filter (fun x => decide (0 < x))).sum = l.sum := by
  induction l with
  | nil => rfl
  | cons x xs ih =>
      by_cases hx : 0 < x
      · simp [List.filter_cons, hx, ih]
      · have hx0 : x = 0 := Nat.eq_zero_of_not_pos hx
        simp [List.filter_cons, hx, hx0, ih]

theorem sum_range_ite (q r : ℕ) (k : ℕ) :
    ((List.range k).map (fun i => q + if i < r then 1 else 0)).sum
      = k * q + min r k := by
  induction k with
  | zero => simp
  | succ k ih =>
      rw [List.range_succ, List.map_append, List.sum_append]
      simp only [List.map_cons, List.map_nil, List.sum_cons, List.sum_nil, ih]
      rw [Nat.succ_mul]
      by_cases hk : k < r
      · simp only [if_pos hk]
        omega
      · simp only [if_neg hk]
        omega

theorem evenSliceLens_sum (n k : ℕ) (hk : 1 ≤ k) : (evenSliceLens n k).sum = n := by
  unfold evenSliceLens
  rw [sum_filter_pos, sum_range_ite]
  have hlt : n % k < k := Nat.mod_lt _ hk
  have hmin : min (n % k) k = n % k := Nat.min_eq_left (Nat.le_of_lt hlt)
  rw [hmin]
  have := Nat.div_add_mod n k
  omega

theorem splitLens_map {α β : Type} (f : α → β) (ls : List ℕ) (xs : List α) :
    splitLens ls (xs.map f) = (splitLens ls xs).map (List.map f) := by
  induction ls generalizing xs with
  | nil => rfl
  | cons l ls ih =>
      simp only [splitLens, List.map_cons, List.map_take, ← List.map_drop, ih]

theorem splitLens_flatten {α : Type} (ls : List ℕ) (xs : List α) :
    (splitLens ls xs).flatten = xs.take ls.sum := by
  induction ls generalizing xs with
  | nil => simp [splitLens]
  | cons l ls ih =>
      simp only [splitLens, List.flatten_cons, ih, List.sum_cons]
      rw [List.take_add]

theorem slicesOf_flatten {α : Type} (xs : List α) (k : ℕ) (hk : 1 ≤ k) :
    (slicesOf xs k).flatten = xs := by
  unfold slicesOf
  rw [splitLens_flatten, evenSliceLens_sum _ _ hk, List.take_length]

theorem slicesOf_map_flatten {α β : Type} (f : α → β) (xs : List α) (k : ℕ)
    (hk : 1 ≤ k) :
    ((slicesOf xs k).map (List.map f)).flatten = xs.map f := by
  have h1 : (slicesOf xs k).map (List.map f) = slicesOf (xs.map f) k := by
    unfold slicesOf
    rw [List.length_map, splitLens_map]
  rw [h1, slicesOf_flatten _ _ hk]

theorem flatten_flatten_eq {α : Type} (L : List (List (List α))) :
    L.flatten.flatten = (L.map List.flatten).flatten := by
  induction L with
  | nil => rfl
  | cons x xs ih =>
      simp only [List.flatten_cons, List.map_cons, List.flatten_append, ih]

theorem flatten_getD_uniform {α : Type} (L : List (List α)) (N : ℕ) (a : α)
    (h : ∀ l ∈ L, l.length = N) (dI s : ℕ) (hd : dI < L.length) (hs : s < N) :
    L.flatten.getD (dI * N + s) a = (L.getD dI []).getD s a := by
  induction L generalizing dI with
  | nil => simp at hd
  | cons x xs ih =>
      have hx : x.length = N := h x (List.mem_cons_self x xs)
      cases dI with
      | zero =>
          have h1 : ((x :: xs).getD 0 []) = x := rfl
          rw [h1, Nat.zero_mul, Nat.zero_add, List.flatten_cons]
          rw [List.getD_eq_getElem?_getD, List.getElem?_append_left (by omega),
            ← List.getD_eq_getElem?_getD]
      | succ dI =>
          simp only [List.flatten_cons]
          have hidx : (dI + 1) * N + s = x.length + (dI * N + s) := by
            rw [hx]; ring
          rw [List.getD_eq_getElem?_getD, hidx, List.getElem?_append_right (by omega)]
          have : x.length + (dI * N + s) - x.length = dI * N + s := by omega
          rw [this, ← List.getD_eq_getElem?_getD]
          have hrest : ∀ l ∈ xs, l.length = N := fun l hl => h l (List.mem_cons_of_mem _ hl)
          have := ih hrest dI (by simpa using hd)
          simpa using this

/-- The base-2 Shannon entropy routine `scipy.stats.entropy(pk, base=2)` on
one row: the row is normalized by its sum and `sum(entr(p)) / log 2` is
taken.  A zero sum on a nonempty row yields NaN (0/0 normalization); an
empty row yields 0 (an empty sum).  Finite values are expressed through the
abstract float routine `log2`; negative entries, which `check_diagrams`
excludes upstream, are not modelled specially. -/
def shannonEntropy2 {K : Type} [LinearOrderedField K] (log2 : K → K)
    (pk : List K) : RFloat K :=
  let s := pk.sum
  if s = 0 then (if pk.isEmpty then .fin 0 else .nan)
  else .fin (-(pk.map (fun l => l / s * log2 (l / s))).sum)

/-- The static method `PersistenceEntropy._persistence_entropy`
(`features.py`, lines 90-100) on a single subdiagram: lifetimes
`death - birth`, base-2 Shannon entropy, optional division by
`np.log2(sum of lifetimes)` when `normalize` is set, then the
`nan_fill_value` substitution. -/
def persistence_entropy_row {K : Type} [LinearOrderedField K] (log2 : K → K)
    (normalize : Bool) (nanFill : Option K) (diag : List (Pt K)) : RFloat K :=
  let lifespans := diag.map (fun p => p.d - p.b)
  let e0 := shannonEntropy2 log2 lifespans
  let e1 := if normalize then rdiv e0 (npLog2 log2 lifespans.sum) else e0
  applyNanFill nanFill e1

/-- `PersistenceEntropy._persistence_entropy` on a batch of subdiagrams
(the function is vectorized over axis 0 in the source). -/
def persistence_entropy {K : Type} [LinearOrderedField K] (log2 : K → K)
    (normalize : Bool) (nanFill : Option K) (X : List (List (Pt K))) :
    List (RFloat K) :=
  X.map (persistence_entropy_row log2 normalize nanFill)

/-- The state of a fitted `PersistenceEntropy` estimator: the `normalize`
and `nan_fill_value` hyperparameters and the frozen sorted
`homology_dimensions_`. -/
structure PEState (K : Type) where
  normalize : Bool
  nan_fill_value : Option K
  homology_dimensions : List ℤ

/-- The flat sequence of entropy values produced by the `joblib.Parallel`
generator of `PersistenceEntropy.transform` (`features.py`, lines 170-178):
for each fitted dimension, for each batch slice, the per-sample entropies of
that dimension's subdiagrams, concatenated in task-submission order. -/
def peFlat {K : Type} [LinearOrderedField K] (log2 : K → K) (st : PEState K)
    (njobs : ℕ) (X : List (List (Pt K))) : List (RFloat K) :=
  ((st.homology_dimensions.map (fun dim =>
    (slicesOf X njobs).map (fun Xs =>
      persistence_entropy log2 st.normalize st.nan_fill_value
        (Xs.map (fun x => subdiagrams x dim))))).flatten).flatten

/-- `PersistenceEntropy.transform` (`features.py`, lines 141-180): the flat
results are reassembled by `np.concatenate(Xt).reshape(n_dims, len(X)).T`,
so entry `(s, d)` of the output is flat entry `d * len(X) + s`.  `njobs`
models `effective_n_jobs(self.n_jobs)`, the number of batch slices. -/
def peTransform {K : Type} [LinearOrderedField K] (log2 : K → K)
    (st : PEState K) (njobs : ℕ) (X : List (List (Pt K))) :
    List (List (RFloat K)) :=
  let N := X.length
  (List.range N).map (fun s =>
    (List.range st.homology_dimensions.length).map (fun dI =>
      (peFlat log2 st njobs X).getD (dI * N + s) .nan))

theorem peFlat_eq {K : Type} [LinearOrderedField K] (log2 : K → K)
    (st : PEState K) (njobs : ℕ) (X : List (List (Pt K))) (hj : 1 ≤ njobs) :
    peFlat log2 st njobs X =
      (st.homology_dimensions.map (fun dim =>
        X.map (fun x =>
          persistence_entropy_row log2 st.normalize st.nan_fill_value
            (subdiagrams x dim)))).flatten := by
  unfold peFlat
  rw [flatten_flatten_eq, List.map_map]
  congr 1
  apply List.map_congr_left
  intro dim _
  simp only [Function.comp_apply]
  have h1 : (slicesOf X njobs).map (fun Xs =>
      persistence_entropy log2 st.normalize st.nan_fill_value
        (Xs.map (fun x => subdiagrams x dim)))
      = (slicesOf X njobs).map (List.map (fun x =>
          persistence_entropy_row log2 st.normalize st.nan_fill_value
            (subdiagrams x dim))) := by
    apply List.map_congr_left
    intro Xs _
    unfold persistence_entropy
    rw [List.map_map]
    rfl
  rw [h1, slicesOf_map_flatten _ _ _ hj]

theorem range_map_getD {α : Type} (n : ℕ) (g : ℕ → α) (s : ℕ) (hs : s < n)
    (a : α) : ((List.range n).map g).getD s a = g s := by
  rw [List.getD_eq_getElem?_getD, List.getElem?_map, List.getElem?_range hs]
  rfl

theorem map_getD_of_lt {α β : Type} (f : α → β) (l : List α) (i : ℕ)
    (hi : i < l.length) (a : α) (b : β) : (l.map f).getD i b = f (l.getD i a) := by
  rw [List.getD_eq_getElem?_getD, List.getElem?_map, List.getD_eq_getElem?_getD,
    List.getElem?_eq_getElem hi]
  rfl

/-- Entry `(s, dI)` of the `PersistenceEntropy.transform` output is the
persistence entropy of sample `s`'s subdiagram in the `dI`-th fitted
homology dimension, for any positive number of parallel slices. -/
theorem peTransform_entry {K : Type} [LinearOrderedField K] (log2 : K → K)
    (st : PEState K) (njobs : ℕ) (X : List (List (Pt K))) (s dI : ℕ)
    (hj : 1 ≤ njobs) (hs : s < X.length)
    (hd : dI < st.homology_dimensions.length) :
    ((peTransform log2 st njobs X).getD s []).getD dI .nan =
      persistence_entropy_row log2 st.normalize st.nan_fill_value
        (subdiagrams (X.getD s []) (st.homology_dimensions.getD dI 0)) := by
  unfold peTransform
  rw [range_map_getD _ _ _ hs, range_map_getD _ _ _ hd]
  rw [peFlat_eq _ _ _ _ hj]
  have hlen : ∀ l ∈ (st.homology_dimensions.map (fun dim =>
      X.map (fun x =>
        persistence_entropy_row log2 st.normalize st.nan_fill_value
          (subdiagrams x dim)))), l.length = X.length := by
    intro l hl
    obtain ⟨dim, _, rfl⟩ := List.mem_map.mp hl
    simp
  have hd2 : dI < (st.homology_dimensions.map (fun dim =>
      X.map (fun x =>
        persistence_entropy_row log2 st.normalize st.nan_fill_value
          (subdiagrams x dim)))).length := by
    simpa using hd
  rw [flatten_getD_uniform _ X.length RFloat.nan hlen dI s hd2 hs]
  rw [map_getD_of_lt _ _ _ hd 0 []]
  rw [map_getD_of_lt _ X s hs ([] : List (Pt K)) RFloat.nan]

/-- An `order` value for `Amplitude`: a positive float `p`, or `np.inf`.
The hyperparameter interval declared in the source is `(0, inf]` closed on
the right. -/
inductive AOrder (K : Type) where
  | pos (p : K)
  | top

/-- Validity of an `order` value, following the source's
`Interval(0, np.inf, closed='right')`. -/
def AOrder.valid {K : Type} [LinearOrderedField K] : AOrder K → Prop
  | .pos p => 0 < p
  | .top => True

/-- `np.linalg.norm(v, ord=p)` on one row: `sum(abs(a)**p)**(1/p)` for a
finite order `p`, and `max(abs(a))` for `ord=np.inf`.  Float powers are
expressed through the abstract routine `rpow`. -/
def pnormNp {K : Type} [LinearOrderedField K] (rpow : K → K → K) :
    AOrder K → List K → K
  | .pos p, v => rpow ((v.map (fun a => rpow |a| p)).sum) (1 / p)
  | .top, v => (v.map (fun a => |a|)).foldr max 0

/-- The state of a fitted `Amplitude` estimator: the frozen sorted homology
dimensions, the `order` hyperparameter, the metric kernel selected by
`metric` together with the frozen `effective_metric_params_` (an abstract
per-subdiagram amplitude function, a pluggable black box in the source),
and the float power routine used by `np.linalg.norm`. -/
structure AmpState (K : Type) where
  homology_dimensions : List ℤ
  order : Option (AOrder K)
  kernel : List (Pt K) → ℤ → K
  rpow : K → K → K

/-- Modelled from the spec (section 4.3, "Parallelism"): the helper
`_parallel_amplitude` of `gtda/diagrams/_metrics.py` is not part of the
provided source; per the spec the work is split across
(dimension x batch-slice) pairs, the kernel's distance of each subdiagram
from the empty diagram is computed, and the results are collected into one
amplitude vector per sample ordered by ascending homology dimension. -/
def parallel_amplitude {K : Type} [LinearOrderedField K] (st : AmpState K)
    (njobs : ℕ) (X : List (List (Pt K))) : List (List K) :=
  let N := X.length
  let flat := ((st.homology_dimensions.map (fun dim =>
    (slicesOf X njobs).map (fun Xs =>
      Xs.map (fun x => st.kernel (subdiagrams x dim) dim)))).flatten).flatten
  (List.range N).map (fun s =>
    (List.range st.homology_dimensions.length).map (fun dI =>
      flat.getD (dI * N + s) 0))

/-- `Amplitude.transform` (`features.py`, lines 356-392): the amplitude
matrix from `_parallel_amplitude`, then, when `order` is not `None`,
`np.linalg.norm(Xt, axis=1, ord=self.order).reshape(-1, 1)`. -/
def ampTransform {K : Type} [LinearOrderedField K] (st : AmpState K)
    (njobs : ℕ) (X : List (List (Pt K))) : List (List K) :=
  let M := parallel_amplitude st njobs X
  match st.order with
  | none => M
  | some o => M.map (fun row => [pnormNp st.rpow o row])

/-- The state of a fitted `ATOL` estimator: the frozen sorted homology
dimensions, the per-dimension cluster centers and inertias computed by
`fit`, and the contrast function (a pluggable callable resolved from
`implemented_contrast_recipes`, abstracted as a
(points, centers, inertias) -> per-point-per-center matrix).  The weight
function is the spec's uniform weight 1 (see `weight_one`). -/
structure AtolState (K : Type) where
  homology_dimensions : List ℤ
  cluster_centers : ℤ → List (K × K)
  inertias : ℤ → List (RFloat K)
  contrast_function : List (K × K) → List (K × K) → List (RFloat K) → List (List K)

/-- Transpose of a rectangular matrix with the given number of columns,
modelling numpy's `.T` on a 2-D array. -/
def transposeRect {α : Type} (M : List (List α)) (cols : ℕ) : List (List α) :=
  (List.range cols).map (fun j => M.filterMap (fun row => row.get? j))

/-- Modelled from the spec (section 4.4, step 2 of fit): the weight recipe
named `'one'` / uniform, resolved from `implemented_weight_recipes` which is
not part of the provided source; per the spec the default weight function
gives every row weight 1 (`np.ones(X.shape[0])`). -/
def weight_one {K : Type} [LinearOrderedField K] (n : ℕ) : List K :=
  List.replicate n 1

/-- `ATOL._vectorize` (`features.py`, lines 552-564) on the (birth, death)
pairs of one sample's subdiagram: diagonal points are removed; if points
remain, the contrast matrix against that dimension's centers is computed
and transposed, otherwise a `(n_clusters, 1)` zero matrix is used; rows are
weighted and summed along axis 1, giving one scalar per cluster center. -/
def vectorize {K : Type} [LinearOrderedField K] (st : AtolState K)
    (XdSub : List (K × K)) (dim : ℤ) : List K :=
  let pts := XdSub.filter (fun p => decide (p.2 ≠ p.1))
  let M : List (List K) :=
    if pts.isEmpty then
      List.replicate (st.cluster_centers dim).length [0]
    else
      transposeRect
        (st.contrast_function pts (st.cluster_centers dim) (st.inertias dim))
        (st.cluster_centers dim).length
  let w := weight_one M.length
  (w.zip M).map (fun p => p.1 * p.2.sum)

/-- `ATOL.transform` (`features.py`, lines 566-597): per-dimension,
per-sample `_vectorize` results in task-submission order (outer loop over
dimensions, inner loop over samples), then
`np.concatenate(Xt).reshape(X.shape[0], -1)`.  The `njobs` parameter (the
joblib parallelism degree) does not enter the work-unit generator.  Note
that, unlike `PersistenceEntropy.transform`, no transpose is applied before
the reshape. -/
def atolTransform {K : Type} [LinearOrderedField K] (st : AtolState K)
    (njobs : ℕ) (X : List (List (Pt K))) : List (List K) :=
  let flat := ((st.homology_dimensions.map (fun dim =>
    X.map (fun x => vectorize st (subdiagramPoints x dim) dim))).flatten).flatten
  let N := X.length
  let rowLen := flat.length / N
  (List.range N).map (fun i => (flat.drop (i * rowLen)).take rowLen)

/-- The Euclidean distance of `sklearn.metrics.pairwise_distances` on
points of the (birth, death) plane, with the square root abstracted as
`sqrtFn`. -/
def euclid {K : Type} [LinearOrderedField K] (sqrtFn : K → K) (a c : K × K) : K :=
  sqrtFn ((a.1 - c.1) ^ (2 : ℕ) + (a.2 - c.2) ^ (2 : ℕ))

/-- `sklearn.metrics.pairwise_distances` on a list of planar points. -/
def pairwise_distances {K : Type} [LinearOrderedField K] (sqrtFn : K → K)
    (pts : List (K × K)) : List (List K) :=
  pts.map (fun a => pts.map (fun c => euclid sqrtFn a c))

/-- `np.fill_diagonal(M, 0)`: replace entry `(i, i)` of each row by 0. -/
def fillDiagZeroAux {K : Type} [LinearOrderedField K] :
    ℕ → List (List K) → List (List K)
  | _, [] => []
  | i, row :: rest => row.set i 0 :: fillDiagZeroAux (i + 1) rest

/-- `np.fill_diagonal(M, 0)` starting from the top-left corner. -/
def fill_diagonal_zero {K : Type} [LinearOrderedField K] (M : List (List K)) :
    List (List K) :=
  fillDiagZeroAux 0 M

/-- The masked assignment `dist_centers[dist_centers == 0] = np.inf` on one
entry. -/
def zeroToInf {K : Type} [LinearOrderedField K] (x : K) : RFloat K :=
  if x = 0 then .inf else .fin x

/-- `np.minimum` on two modelled floats (NaN propagates; infinities
compare as extreme values). -/
def rfMin {K : Type} [LinearOrderedField K] : RFloat K → RFloat K → RFloat K
  | .nan, _ => .nan
  | .fin _, .nan => .nan
  | .inf, .nan => .nan
  | .ninf, .nan => .nan
  | .inf, y => y
  | x, .inf => x
  | .ninf, _ => .ninf
  | .fin _, .ninf => .ninf
  | .fin a, .fin b => .fin (min a b)

/-- `np.min(M, axis=0)` at column `j` of a matrix of modelled floats. -/
def colMin {K : Type} [LinearOrderedField K] (M : List (List (RFloat K)))
    (j : ℕ) : RFloat K :=
  (M.map (fun row => row.getD j .inf)).foldr rfMin .inf

/-- Halving a modelled float (`/ 2.` in the source; infinity stays
infinite). -/
def rhalf {K : Type} [LinearOrderedField K] : RFloat K → RFloat K
  | .fin x => .fin (x / 2)
  | .inf => .inf
  | .ninf => .ninf
  | .nan => .nan

/-- The inertia computation of `ATOL.fit` (`features.py`, lines 533-540)
for one homology dimension: if there is a single cluster, half the maximum
of the pairwise-distance matrix of the pooled points (diagonal filled with
0); otherwise the pairwise-distance matrix of the centers with zero entries
replaced by infinity, minimized along axis 0 and halved. -/
def atol_inertias {K : Type} [LinearOrderedField K] (sqrtFn : K → K)
    (XdSub : List (K × K)) (centers : List (K × K)) : List (RFloat K) :=
  if centers.length = 1 then
    [.fin (((fill_diagonal_zero (pairwise_distances sqrtFn XdSub)).flatten).foldr
      max 0 / 2)]
  else
    let D := (pairwise_distances sqrtFn centers).map (fun row => row.map zeroToInf)
    (List.range centers.length).map (fun j => rhalf (colMin D j))

theorem applyNanFill_fin {K : Type} [LinearOrderedField K] (fill : Option K)
    (x : K) : applyNanFill fill (.fin x) = .fin x := by
  cases fill <;> rfl

theorem nanToNum_ne_nan {K : Type} [LinearOrderedField K] (v : K)
    (x : RFloat K) : nanToNum v x ≠ .nan := by
  cases x <;> simp [nanToNum]

theorem sum_filter_ne_zero {K : Type} [LinearOrderedField K] (l : List K) :
    (l.filter (fun x => decide (x ≠ 0))).sum = l.sum := by
  induction l with
  | nil => rfl
  | cons x xs ih =>
      rw [List.filter_cons]
      by_cases hx : x = 0
      · rw [if_neg (by simpa using hx), ih, List.sum_cons, hx, zero_add]
      · rw [if_pos (by simpa using hx), List.sum_cons, List.sum_cons, ih]

theorem list_sum_nonpos {K : Type} [LinearOrderedField K] (l : List K)
    (h0 : ∀ x ∈ l, x ≤ 0) : l.sum ≤ 0 := by
  induction l with
  | nil => simp
  | cons a t ih =>
      rw [List.sum_cons]
      have ha := h0 a (by simp)
      have ht := ih (fun y hy => h0 y (by simp [hy]))
      linarith

theorem list_sum_neg {K : Type} [LinearOrderedField K] (l : List K)
    (h0 : ∀ x ∈ l, x ≤ 0) (hx : ∃ x ∈ l, x < 0) : l.sum < 0 := by
  induction l with
  | nil => obtain ⟨x, hx1, _⟩ := hx; simp at hx1
  | cons a t ih =>
      rw [List.sum_cons]
      obtain ⟨x, hx1, hx2⟩ := hx
      rcases List.mem_cons.mp hx1 with h | h
      · subst h
        have ht := list_sum_nonpos t (fun y hy => h0 y (by simp [hy]))
        linarith
      · have ha : a ≤ 0 := h0 a (by simp)
        have ht : t.sum < 0 := ih (fun y hy => h0 y (by simp [hy])) ⟨x, h, hx2⟩
        linarith

theorem zip_replicate_self {α β : Type} (n : ℕ) (a : α) (b : β) :
    (List.replicate n a).zip (List.replicate n b) = List.replicate n (a, b) := by
  induction n with
  | zero => rfl
  | succ n ih => simp [List.replicate_succ, ih]

theorem set_get_eq {α : Type} :
    ∀ (l : List α) (i : ℕ) (a : α), l.get? i = some a → l.set i a = l
  | [], i, a, h => by simp at h
  | x :: t, 0, a, h => by
      simp only [List.get?_cons_zero, Option.some.injEq] at h
      simp [h]
  | x :: t, i + 1, a, h => by
      simp only [List.get?_cons_succ] at h
      simp [List.set_cons_succ, set_get_eq t i a h]

/-- The `(dimension x batch-slice) -> (dimension x sample)` collapse: for any
positive number of slices, the flat task outputs coincide with the
one-slice, per-sample outputs. -/
theorem doubleFlat_slices {α β : Type} (dims : List ℤ) (g : ℤ → α → β)
    (X : List α) (k : ℕ) (hk : 1 ≤ k) :
    ((dims.map (fun dim => (slicesOf X k).map (fun Xs => Xs.map (g dim)))).flatten).flatten
      = (dims.map (fun dim => X.map (g dim))).flatten := by
  rw [flatten_flatten_eq, List.map_map]
  congr 1
  apply List.map_congr_left
  intro dim _
  simp only [Function.comp_apply]
  exact slicesOf_map_flatten _ _ _ hk

/-- C1: for every fitted `Amplitude` instance and input batch, and every
valid `order` value in `(0, inf]`, `transform` with `order=p` equals the
row-wise p-norm (as computed by `np.linalg.norm`) of `transform` with
`order=None` on the same input, as an exact algebraic identity; with
`order=None` each output row has `n_homology_dimensions` entries and with
`order=p` each output row has exactly one entry. -/
theorem C1_amplitude_order_pnorm {K : Type} [LinearOrderedField K]
    (st : AmpState K) (o : AOrder K) (njobs : ℕ) (X : List (List (Pt K)))
    (ho : o.valid) :
    ampTransform { st with order := some o } njobs X
        = (ampTransform { st with order := none } njobs X).map
            (fun row => [pnormNp st.rpow o row]) ∧
    (∀ row ∈ ampTransform { st with order := none } njobs X,
        row.length = st.homology_dimensions.length) ∧
    (∀ row ∈ ampTransform { st with order := some o } njobs X,
        row.length = 1) := by
  refine ⟨rfl, ?_, ?_⟩
  · intro row hrow
    unfold ampTransform parallel_amplitude at hrow
    simp only at hrow
    obtain ⟨s, _, rfl⟩ := List.mem_map.mp hrow
    simp
  · intro row hrow
    unfold ampTransform at hrow
    simp only at hrow
    obtain ⟨r, _, rfl⟩ := List.mem_map.mp hrow
    rfl

def C1wSt : AmpState ℚ :=
  { homology_dimensions := [0, 1]
    order := none
    kernel := fun sd _ => (sd.map (fun p => p.d - p.b)).sum
    rpow := fun a b => a + b }

def C1wX : List (List (Pt ℚ)) := [[⟨0, 1, 0⟩, ⟨0, 3, 1⟩], [⟨1, 2, 0⟩, ⟨0, 5, 1⟩]]

theorem C1_amplitude_order_pnorm_witness :
    (AOrder.pos (2 : ℚ)).valid ∧
    (ampTransform { C1wSt with order := some (AOrder.pos 2) } 1 C1wX
        = (ampTransform { C1wSt with order := none } 1 C1wX).map
            (fun row => [pnormNp C1wSt.rpow (AOrder.pos 2) row]) ∧
      (∀ row ∈ ampTransform { C1wSt with order := none } 1 C1wX,
          row.length = C1wSt.homology_dimensions.length) ∧
      (∀ row ∈ ampTransform { C1wSt with order := some (AOrder.pos 2) } 1 C1wX,
          row.length = 1)) :=
  ⟨by norm_num [AOrder.valid],
    C1_amplitude_order_pnorm C1wSt (AOrder.pos 2) 1 C1wX (by norm_num [AOrder.valid])⟩

def C2st : AtolState ℚ :=
  { homology_dimensions := [0, 1]
    cluster_centers := fun _ => [(0, 0)]
    inertias := fun _ => [RFloat.fin 1]
    contrast_function := fun pts _ _ => pts.map (fun p => [p.2]) }

def C2X : List (List (Pt ℚ)) := [[⟨0, 1, 0⟩, ⟨0, 10, 1⟩], [⟨0, 2, 0⟩, ⟨0, 20, 1⟩]]

/-- C2: at a batch of two diagrams and two fitted homology dimensions (one
cluster each), row 0 of `ATOL.transform` is `[1, 2]` — the dimension-0
scalars of both samples — whereas the feature vector of input diagram 0
(the concatenation over ascending dimensions of its per-center vectors) is
`[1, 10]`.  The missing transpose before `reshape(X.shape[0], -1)` packs
the output dimension-major, so rows do not follow the input batch order. -/
theorem C2_atol_row_scramble :
    (atolTransform C2st 1 C2X).getD 0 [] = [1, 2] ∧
    (C2st.homology_dimensions.map (fun dim =>
        vectorize C2st (subdiagramPoints (C2X.getD 0 []) dim) dim)).flatten
      = [1, 10] ∧
    ([(1 : ℚ), 2] : List ℚ) ≠ [1, 10] := by
  refine ⟨?_, ?_, by norm_num⟩
  · norm_num [atolTransform, vectorize, subdiagramPoints, subdiagrams, C2st,
      C2X, transposeRect, weight_one, List.filter, List.range_succ,
      List.range_zero, List.filterMap_cons, Function.comp,
      List.zip_cons_cons, List.take_succ_cons]
  · norm_num [vectorize, subdiagramPoints, subdiagrams, C2st, C2X,
      transposeRect, weight_one, List.filter, List.range_succ,
      List.range_zero, List.filterMap_cons, Function.comp,
      List.zip_cons_cons]

theorem entropy_row_single {K : Type} [LinearOrderedField K] (log2 : K → K)
    (normalize : Bool) (fill : Option K) (sd : List (Pt K)) (L : K)
    (hlog1 : log2 1 = 0) (hiff : ∀ q : K, 0 < q → (log2 q = 0 ↔ q = 1))
    (hone : (sd.map (fun p => p.d - p.b)).filter (fun l => decide (l ≠ 0)) = [L])
    (hL : 0 < L) :
    persistence_entropy_row log2 normalize fill sd =
      if normalize = true ∧ L = 1 then applyNanFill fill .nan else .fin 0 := by
  have hLne : L ≠ 0 := ne_of_gt hL
  have hmem : ∀ l ∈ sd.map (fun p => p.d - p.b), l = 0 ∨ l = L := by
    intro l hl
    by_cases h : l = 0
    · exact Or.inl h
    · right
      have hmf : l ∈ (sd.map (fun p => p.d - p.b)).filter
          (fun l => decide (l ≠ 0)) := List.mem_filter.mpr ⟨hl, by simpa using h⟩
      rw [hone] at hmf
      simpa using hmf
  have hsum : (sd.map (fun p => p.d - p.b)).sum = L := by
    rw [← sum_filter_ne_zero, hone, List.sum_cons, List.sum_nil, add_zero]
  have hT : ((sd.map (fun p => p.d - p.b)).map
      (fun l => l / (sd.map (fun p => p.d - p.b)).sum *
        log2 (l / (sd.map (fun p => p.d - p.b)).sum))).sum = 0 := by
    apply List.sum_eq_zero
    intro y hy
    obtain ⟨l, hl, rfl⟩ := List.mem_map.mp hy
    rcases hmem l hl with h | h
    · rw [h, zero_div, zero_mul]
    · rw [h, hsum, div_self hLne, one_mul, hlog1]
  have he0 : shannonEntropy2 log2 (sd.map (fun p => p.d - p.b)) = .fin 0 := by
    unfold shannonEntropy2
    rw [if_neg (by rw [hsum]; exact hLne), hT, neg_zero]
  unfold persistence_entropy_row
  simp only [he0, hsum]
  cases normalize with
  | false =>
      rw [if_neg (by simp), if_neg (by simp)]
      exact applyNanFill_fin _ _
  | true =>
      rw [if_pos rfl]
      unfold npLog2
      rw [if_neg hLne, if_neg (not_lt.mpr hL.le)]
      simp only [rdiv]
      by_cases hL1 : L = 1
      · have hlz : log2 L = 0 := by rw [hL1, hlog1]
        rw [if_pos hlz, if_pos trivial, if_pos ⟨trivial, hL1⟩]
      · have hlogne : log2 L ≠ 0 := fun h => hL1 ((hiff L hL).mp h)
        have hc : ¬(True ∧ L = 1) := by rintro ⟨_, h⟩; exact hL1 h
        rw [if_neg hlogne, zero_div, if_neg hc]
        exact applyNanFill_fin _ _

/-- C3 (amended): for every fitted `PersistenceEntropy` instance and every
diagram whose subdiagram for a fitted homology dimension has exactly one
non-diagonal point of lifetime `L > 0` (and any number of diagonal points),
the corresponding output entry is exactly 0 — except when `normalize=True`
and `L = 1`, where the normalization divides by `log2(1) = 0`, giving NaN
and hence `nan_fill_value` (or the NaN sentinel when it is `None`). -/
theorem C3_single_point_entropy {K : Type} [LinearOrderedField K]
    (log2 : K → K) (st : PEState K) (njobs : ℕ) (X : List (List (Pt K)))
    (s dI : ℕ) (L : K) (hj : 1 ≤ njobs) (hs : s < X.length)
    (hd : dI < st.homology_dimensions.length)
    (hlog1 : log2 1 = 0) (hiff : ∀ q : K, 0 < q → (log2 q = 0 ↔ q = 1))
    (hone : ((subdiagrams (X.getD s []) (st.homology_dimensions.getD dI 0)).map
        (fun p => p.d - p.b)).filter (fun l => decide (l ≠ 0)) = [L])
    (hL : 0 < L) :
    ((peTransform log2 st njobs X).getD s []).getD dI .nan =
      if st.normalize = true ∧ L = 1 then applyNanFill st.nan_fill_value .nan
      else .fin 0 := by
  rw [peTransform_entry _ _ _ _ _ _ hj hs hd]
  exact entropy_row_single _ _ _ _ _ hlog1 hiff hone hL

def C3log2 : ℚ → ℚ := fun q => if q = 1 then 0 else 1

def C3st : PEState ℚ :=
  { normalize := true, nan_fill_value := some (-1), homology_dimensions := [0] }

def C3X : List (List (Pt ℚ)) := [[⟨0, 1, 0⟩]]

/-- C3 counterexample: a fitted instance with `normalize=True` and
`nan_fill_value=-1.` and a diagram with a single non-diagonal point of
lifetime 1 in dimension 0 gives output entry `-1.`, not 0 (the modelled
`log2` agrees with `np.log2` on the only value it is called at, `1`). -/
theorem C3_single_point_entropy_counterexample :
    ((peTransform C3log2 C3st 1 C3X).getD 0 []).getD 0 .nan = .fin (-1) ∧
    (RFloat.fin (-1 : ℚ)) ≠ .fin 0 := by
  constructor
  · norm_num [peTransform, peFlat, persistence_entropy, persistence_entropy_row,
      shannonEntropy2, npLog2, rdiv, applyNanFill, nanToNum, subdiagrams,
      slicesOf, evenSliceLens, splitLens, C3log2, C3st, C3X, List.filter,
      List.range_succ, List.range_zero]
  · intro h
    rw [RFloat.fin.injEq] at h
    norm_num at h

def C3wX : List (List (Pt ℚ)) := [[⟨0, 3, 0⟩, ⟨5, 5, 0⟩]]

def C3wst : PEState ℚ :=
  { normalize := false, nan_fill_value := some (-1), homology_dimensions := [0] }

theorem C3_single_point_entropy_witness :
    ((1 ≤ 1) ∧ (0 < C3wX.length) ∧ (0 < C3wst.homology_dimensions.length) ∧
      C3log2 1 = 0 ∧ (∀ q : ℚ, 0 < q → (C3log2 q = 0 ↔ q = 1)) ∧
      ((subdiagrams (C3wX.getD 0 []) (C3wst.homology_dimensions.getD 0 0)).map
        (fun p => p.d - p.b)).filter (fun l => decide (l ≠ 0)) = [3] ∧
      (0 : ℚ) < 3) ∧
    ((peTransform C3log2 C3wst 1 C3wX).getD 0 []).getD 0 .nan =
      (if C3wst.normalize = true ∧ (3 : ℚ) = 1 then
        applyNanFill C3wst.nan_fill_value .nan else .fin 0) :=
  ⟨⟨le_refl 1, by norm_num [C3wX], by norm_num [C3wst],
    by norm_num [C3log2],
    fun q hq => by
      unfold C3log2
      by_cases h1 : q = 1
      · simp [h1]
      · simp [h1],
    by norm_num [C3wX, C3wst, subdiagrams, List.filter],
    by norm_num⟩,
    C3_single_point_entropy C3log2 C3wst 1 C3wX 0 0 3 (le_refl 1)
      (by norm_num [C3wX]) (by norm_num [C3wst]) (by norm_num [C3log2])
      (fun q hq => by
        unfold C3log2
        by_cases h1 : q = 1
        · simp [h1]
        · simp [h1])
      (by norm_num [C3wX, C3wst, subdiagrams, List.filter]) (by norm_num)⟩

theorem rdiv_nan_left {K : Type} [LinearOrderedField K] (y : RFloat K) :
    rdiv (.nan) y = .nan := by
  cases y <;> rfl

theorem entropy_row_diagonal {K : Type} [LinearOrderedField K] (log2 : K → K)
    (normalize : Bool) (fill : Option K) (sd : List (Pt K))
    (hne : sd ≠ []) (hdiag : ∀ p ∈ sd, p.d = p.b) :
    persistence_entropy_row log2 normalize fill sd =
      match fill with
      | some v => .fin v
      | none => .nan := by
  have hz : ∀ l ∈ sd.map (fun p => p.d - p.b), l = 0 := by
    intro l hl
    obtain ⟨p, hp, rfl⟩ := List.mem_map.mp hl
    rw [hdiag p hp, sub_self]
  have hsum : (sd.map (fun p => p.d - p.b)).sum = 0 := List.sum_eq_zero hz
  have hie : (sd.map (fun p => p.d - p.b)).isEmpty = false := by
    cases sd with
    | nil => exact absurd rfl hne
    | cons p r => rfl
  have he0 : shannonEntropy2 log2 (sd.map (fun p => p.d - p.b)) = .nan := by
    unfold shannonEntropy2
    simp [hsum, hie]
  unfold persistence_entropy_row
  simp only [he0]
  cases normalize with
  | false =>
      rw [if_neg (by simp)]
      cases fill <;> rfl
  | true =>
      rw [if_pos rfl, rdiv_nan_left]
      cases fill <;> rfl

/-- C4: for every fitted `PersistenceEntropy` instance and every diagram
whose (nonempty) subdiagram for a fitted homology dimension consists only
of diagonal points (`death == birth` for every point of that dimension),
the corresponding output entry equals `nan_fill_value` when that parameter
is a float, and is the NaN sentinel when it is `None`. -/
theorem C4_all_diagonal_entropy {K : Type} [LinearOrderedField K]
    (log2 : K → K) (st : PEState K) (njobs : ℕ) (X : List (List (Pt K)))
    (s dI : ℕ) (hj : 1 ≤ njobs) (hs : s < X.length)
    (hd : dI < st.homology_dimensions.length)
    (hne : subdiagrams (X.getD s []) (st.homology_dimensions.getD dI 0) ≠ [])
    (hdiag : ∀ p ∈ subdiagrams (X.getD s []) (st.homology_dimensions.getD dI 0),
      p.d = p.b) :
    ((peTransform log2 st njobs X).getD s []).getD dI .nan =
      match st.nan_fill_value with
      | some v => .fin v
      | none => .nan := by
  rw [peTransform_entry _ _ _ _ _ _ hj hs hd]
  exact entropy_row_diagonal _ _ _ _ hne hdiag

def C4wst : PEState ℚ :=
  { normalize := true, nan_fill_value := some (-1), homology_dimensions := [0] }

def C4wX : List (List (Pt ℚ)) := [[⟨3, 3, 0⟩, ⟨7, 7, 0⟩]]

theorem C4_all_diagonal_entropy_witness :
    ((1 ≤ 1) ∧ (0 < C4wX.length) ∧ (0 < C4wst.homology_dimensions.length) ∧
      subdiagrams (C4wX.getD 0 []) (C4wst.homology_dimensions.getD 0 0) ≠ [] ∧
      (∀ p ∈ subdiagrams (C4wX.getD 0 [])
          (C4wst.homology_dimensions.getD 0 0), p.d = p.b)) ∧
    ((peTransform C3log2 C4wst 1 C4wX).getD 0 []).getD 0 .nan =
      (match C4wst.nan_fill_value with
      | some v => RFloat.fin v
      | none => RFloat.nan) :=
  ⟨⟨le_refl 1, by norm_num [C4wX], by norm_num [C4wst],
    by decide,
    by
      intro p hp
      simp only [C4wX, C4wst, subdiagrams, List.filter, List.getD] at hp
      norm_num at hp
      rcases hp with h | h <;> simp [h]⟩,
    C4_all_diagonal_entropy C3log2 C4wst 1 C4wX 0 0 (le_refl 1)
      (by norm_num [C4wX]) (by norm_num [C4wst])
      (by decide)
      (by
        intro p hp
        simp only [C4wX, C4wst, subdiagrams, List.filter, List.getD] at hp
        norm_num at hp
        rcases hp with h | h <;> simp [h])⟩

theorem persistence_entropy_row_fill {K : Type} [LinearOrderedField K]
    (log2 : K → K) (normalize : Bool) (v : K) (sd : List (Pt K)) :
    persistence_entropy_row log2 normalize (some v) sd
      = nanToNum v (persistence_entropy_row log2 normalize none sd) := rfl

theorem entropy_row_inf {K : Type} [LinearOrderedField K] (log2 : K → K)
    (sd : List (Pt K))
    (hlog1 : log2 1 = 0) (hneg : ∀ q : K, 0 < q → q < 1 → log2 q < 0)
    (hnn : ∀ l ∈ sd.map (fun p => p.d - p.b), 0 ≤ l)
    (hsum : (sd.map (fun p => p.d - p.b)).sum = 1)
    (h2 : 2 ≤ ((sd.map (fun p => p.d - p.b)).filter
      (fun l => decide (l ≠ 0))).length) :
    persistence_entropy_row log2 true none sd = .inf := by
  have hT : ((sd.map (fun p => p.d - p.b)).map (fun l => l * log2 l)).sum < 0 := by
    apply list_sum_neg
    · intro y hy
      obtain ⟨l, hl, rfl⟩ := List.mem_map.mp hy
      have h0l : 0 ≤ l := hnn l hl
      have hl1 : l ≤ 1 := by
        have := List.single_le_sum hnn l hl
        rwa [hsum] at this
      rcases eq_or_lt_of_le h0l with h | hpos
      · rw [← h, zero_mul]
      · rcases eq_or_lt_of_le hl1 with h1 | h1
        · rw [h1, hlog1, mul_zero]
        · exact (mul_neg_of_pos_of_neg hpos (hneg l hpos h1)).le
    · have hF : ((sd.map (fun p => p.d - p.b)).filter
          (fun l => decide (l ≠ 0))) ≠ [] := by
        intro h
        rw [h] at h2
        simp at h2
      obtain ⟨a, F1, hFa⟩ := List.exists_cons_of_ne_nil hF
      have hF1 : F1 ≠ [] := by
        intro h
        rw [h] at hFa
        rw [hFa] at h2
        simp at h2
      obtain ⟨b, F2, hFb⟩ := List.exists_cons_of_ne_nil hF1
      have hain : a ∈ (sd.map (fun p => p.d - p.b)).filter
          (fun l => decide (l ≠ 0)) := by rw [hFa]; simp
      have hbin : b ∈ (sd.map (fun p => p.d - p.b)).filter
          (fun l => decide (l ≠ 0)) := by rw [hFa, hFb]; simp
      have hals : a ∈ sd.map (fun p => p.d - p.b) := List.mem_of_mem_filter hain
      have hbls : b ∈ sd.map (fun p => p.d - p.b) := List.mem_of_mem_filter hbin
      have ha0 : a ≠ 0 := by simpa using List.of_mem_filter hain
      have hb0 : b ≠ 0 := by simpa using List.of_mem_filter hbin
      have hapos : 0 < a := (hnn a hals).lt_of_ne (Ne.symm ha0)
      have hbpos : 0 < b := (hnn b hbls).lt_of_ne (Ne.symm hb0)
      have hFsum : ((sd.map (fun p => p.d - p.b)).filter
          (fun l => decide (l ≠ 0))).sum = 1 := by
        rw [sum_filter_ne_zero, hsum]
      have hF2sum : 0 ≤ F2.sum := by
        apply List.sum_nonneg
        intro x hx
        have hxin : x ∈ (sd.map (fun p => p.d - p.b)).filter
            (fun l => decide (l ≠ 0)) := by
          rw [hFa, hFb]
          simp [hx]
        exact hnn x (List.mem_of_mem_filter hxin)
      have ha1 : a < 1 := by
        rw [hFa, hFb, List.sum_cons, List.sum_cons] at hFsum
        linarith
      refine ⟨a * log2 a, List.mem_map_of_mem _ hals, ?_⟩
      exact mul_neg_of_pos_of_neg hapos (hneg a hapos ha1)
  have hrow : persistence_entropy_row log2 true none sd
      = rdiv (shannonEntropy2 log2 (sd.map (fun p => p.d - p.b)))
          (npLog2 log2 ((sd.map (fun p => p.d - p.b)).sum)) := rfl
  have he0 : shannonEntropy2 log2 (sd.map (fun p => p.d - p.b))
      = .fin (-((sd.map (fun p => p.d - p.b)).map (fun l => l * log2 l)).sum) := by
    unfold shannonEntropy2
    rw [if_neg (by rw [hsum]; exact one_ne_zero)]
    simp only [hsum, div_one]
  have hlg : npLog2 log2 ((sd.map (fun p => p.d - p.b)).sum) = .fin 0 := by
    rw [hsum]
    unfold npLog2
    rw [if_neg one_ne_zero, if_neg (by norm_num : ¬((1 : K) < 0)), hlog1]
  rw [hrow, he0, hlg]
  have hTpos : 0 < -((sd.map (fun p => p.d - p.b)).map
      (fun l => l * log2 l)).sum := by linarith
  simp only [rdiv]
  simp only [neg_eq_zero]
  rw [if_pos trivial, if_neg (ne_of_lt hT), if_pos hTpos]

/-- C10: when `nan_fill_value` is a float `v`, every in-range entry of
`PersistenceEntropy.transform` is `np.nan_to_num` of the corresponding raw
entry (the one computed with `nan_fill_value=None`), hence never NaN; raw
entries equal to plus/minus infinity are replaced by the largest/lowest
finite floats, not by `v`; and a raw infinity indeed arises with
`normalize=True` whenever the subdiagram's lifetimes are nonnegative, sum
to exactly 1 and at least two of them are nonzero (so the positive entropy
is divided by `log2(1) = 0`). -/
theorem C10_nan_fill_no_nan {K : Type} [LinearOrderedField K] (log2 : K → K)
    (st : PEState K) (v : K) (njobs : ℕ) (X : List (List (Pt K))) (s dI : ℕ)
    (hj : 1 ≤ njobs) (hs : s < X.length)
    (hd : dI < st.homology_dimensions.length)
    (hfill : st.nan_fill_value = some v) :
    (((peTransform log2 st njobs X).getD s []).getD dI .nan
      = nanToNum v (((peTransform log2 { st with nan_fill_value := none }
          njobs X).getD s []).getD dI .nan)) ∧
    ((peTransform log2 st njobs X).getD s []).getD dI .nan ≠ .nan ∧
    ((((peTransform log2 { st with nan_fill_value := none } njobs X).getD
        s []).getD dI .nan) = .inf →
      ((peTransform log2 st njobs X).getD s []).getD dI .nan
        = .fin (maxFloat K)) ∧
    ((((peTransform log2 { st with nan_fill_value := none } njobs X).getD
        s []).getD dI .nan) = .ninf →
      ((peTransform log2 st njobs X).getD s []).getD dI .nan
        = .fin (minFloat K)) ∧
    (st.normalize = true → log2 1 = 0 →
      (∀ q : K, 0 < q → q < 1 → log2 q < 0) →
      (∀ l ∈ (subdiagrams (X.getD s [])
        (st.homology_dimensions.getD dI 0)).map (fun p => p.d - p.b), 0 ≤ l) →
      ((subdiagrams (X.getD s [])
        (st.homology_dimensions.getD dI 0)).map (fun p => p.d - p.b)).sum = 1 →
      2 ≤ (((subdiagrams (X.getD s [])
        (st.homology_dimensions.getD dI 0)).map (fun p => p.d - p.b)).filter
          (fun l => decide (l ≠ 0))).length →
      (((peTransform log2 { st with nan_fill_value := none } njobs X).getD
        s []).getD dI .nan) = .inf) := by
  have hfilled : ((peTransform log2 st njobs X).getD s []).getD dI .nan
      = persistence_entropy_row log2 st.normalize (some v)
        (subdiagrams (X.getD s []) (st.homology_dimensions.getD dI 0)) := by
    rw [peTransform_entry _ _ _ _ _ _ hj hs hd, hfill]
  have hraw : (((peTransform log2 { st with nan_fill_value := none }
      njobs X).getD s []).getD dI .nan)
      = persistence_entropy_row log2 st.normalize none
        (subdiagrams (X.getD s []) (st.homology_dimensions.getD dI 0)) :=
    peTransform_entry log2 { st with nan_fill_value := none } njobs X s dI
      hj hs hd
  refine ⟨?_, ?_, ?_, ?_, ?_⟩
  · rw [hfilled, hraw, persistence_entropy_row_fill]
  · rw [hfilled, persistence_entropy_row_fill]
    exact nanToNum_ne_nan _ _
  · intro h
    rw [hraw] at h
    rw [hfilled, persistence_entropy_row_fill, h]
    rfl
  · intro h
    rw [hraw] at h
    rw [hfilled, persistence_entropy_row_fill, h]
    rfl
  · intro hnorm hlog1 hneg hnn hsum h2
    rw [hraw, hnorm]
    exact entropy_row_inf log2 _ hlog1 hneg hnn hsum h2

def C10wst : PEState ℚ :=
  { normalize := false, nan_fill_value := some (-1), homology_dimensions := [0] }

def C10wX : List (List (Pt ℚ)) := [[⟨0, 2, 0⟩]]

theorem C10_nan_fill_no_nan_witness :
    ((1 ≤ 1) ∧ (0 < C10wX.length) ∧ (0 < C10wst.homology_dimensions.length) ∧
      C10wst.nan_fill_value = some (-1)) ∧
    ((((peTransform C3log2 C10wst 1 C10wX).getD 0 []).getD 0 .nan
      = nanToNum (-1) (((peTransform C3log2 { C10wst with nan_fill_value := none }
          1 C10wX).getD 0 []).getD 0 .nan)) ∧
    ((peTransform C3log2 C10wst 1 C10wX).getD 0 []).getD 0 .nan ≠ .nan ∧
    ((((peTransform C3log2 { C10wst with nan_fill_value := none } 1 C10wX).getD
        0 []).getD 0 .nan) = .inf →
      ((peTransform C3log2 C10wst 1 C10wX).getD 0 []).getD 0 .nan
        = .fin (maxFloat ℚ)) ∧
    ((((peTransform C3log2 { C10wst with nan_fill_value := none } 1 C10wX).getD
        0 []).getD 0 .nan) = .ninf →
      ((peTransform C3log2 C10wst 1 C10wX).getD 0 []).getD 0 .nan
        = .fin (minFloat ℚ)) ∧
    (C10wst.normalize = true → C3log2 1 = 0 →
      (∀ q : ℚ, 0 < q → q < 1 → C3log2 q < 0) →
      (∀ l ∈ (subdiagrams (C10wX.getD 0 [])
        (C10wst.homology_dimensions.getD 0 0)).map (fun p => p.d - p.b), 0 ≤ l) →
      ((subdiagrams (C10wX.getD 0 [])
        (C10wst.homology_dimensions.getD 0 0)).map (fun p => p.d - p.b)).sum = 1 →
      2 ≤ (((subdiagrams (C10wX.getD 0 [])
        (C10wst.homology_dimensions.getD 0 0)).map (fun p => p.d - p.b)).filter
          (fun l => decide (l ≠ 0))).length →
      (((peTransform C3log2 { C10wst with nan_fill_value := none } 1
        C10wX).getD 0 []).getD 0 .nan) = .inf)) :=
  ⟨⟨le_refl 1, by norm_num [C10wX], by norm_num [C10wst], rfl⟩,
    C10_nan_fill_no_nan C3log2 C10wst (-1) 1 C10wX 0 0 (le_refl 1)
      (by norm_num [C10wX]) (by norm_num [C10wst]) rfl⟩

theorem euclid_comm {K : Type} [LinearOrderedField K] (sqrtFn : K → K)
    (a c : K × K) : euclid sqrtFn a c = euclid sqrtFn c a := by
  unfold euclid
  congr 1
  ring

theorem euclid_self {K : Type} [LinearOrderedField K] (sqrtFn : K → K)
    (hsq0 : sqrtFn 0 = 0) (a : K × K) : euclid sqrtFn a a = 0 := by
  unfold euclid
  simp [hsq0]

theorem euclid_eq_zero_iff {K : Type} [LinearOrderedField K] (sqrtFn : K → K)
    (hsq : ∀ x : K, 0 ≤ x → (sqrtFn x = 0 ↔ x = 0)) (a c : K × K) :
    euclid sqrtFn a c = 0 ↔ a = c := by
  unfold euclid
  rw [hsq _ (by positivity)]
  constructor
  · intro h
    have hx : (a.1 - c.1) ^ (2 : ℕ) = 0 := by
      nlinarith [sq_nonneg (a.1 - c.1), sq_nonneg (a.2 - c.2)]
    have hy : (a.2 - c.2) ^ (2 : ℕ) = 0 := by
      nlinarith [sq_nonneg (a.1 - c.1), sq_nonneg (a.2 - c.2)]
    have h1 : a.1 = c.1 := sub_eq_zero.mp ((pow_eq_zero_iff (two_ne_zero)).mp hx)
    have h2 : a.2 = c.2 := sub_eq_zero.mp ((pow_eq_zero_iff (two_ne_zero)).mp hy)
    exact Prod.ext h1 h2
  · intro h
    rw [h]
    simp

theorem fillDiagAux_eq {K : Type} [LinearOrderedField K] :
    ∀ (i : ℕ) (M : List (List K)),
      (∀ m row, M.get? m = some row → row.get? (i + m) = some 0) →
      fillDiagZeroAux i M = M
  | i, [], h => rfl
  | i, row :: rest, h => by
      unfold fillDiagZeroAux
      have h0 : row.get? (i + 0) = some 0 := h 0 row rfl
      rw [Nat.add_zero] at h0
      rw [set_get_eq row i 0 h0]
      rw [fillDiagAux_eq (i + 1) rest ?_]
      intro m r hr
      have hmem : (row :: rest).get? (m + 1) = some r := by simpa using hr
      have := h (m + 1) r hmem
      rw [show i + 1 + m = i + (m + 1) by omega]
      exact this

theorem fillDiag_pairwise {K : Type} [LinearOrderedField K] (sqrtFn : K → K)
    (hsq0 : sqrtFn 0 = 0) (pts : List (K × K)) :
    fill_diagonal_zero (pairwise_distances sqrtFn pts)
      = pairwise_distances sqrtFn pts := by
  unfold fill_diagonal_zero
  apply fillDiagAux_eq
  intro m row hrow
  unfold pairwise_distances at hrow
  rw [List.get?_map] at hrow
  cases hpt : pts.get? m with
  | none =>
      rw [hpt] at hrow
      exact Option.noConfusion hrow
  | some a =>
      rw [hpt] at hrow
      simp only [Option.map_some', Option.some.injEq] at hrow
      subst hrow
      rw [Nat.zero_add, List.get?_map, hpt]
      simp [euclid_self sqrtFn hsq0]

theorem foldr_min_swap {K : Type} [LinearOrderedField K] (a b : K)
    (l : List K) : min a (l.foldr min b) = min b (l.foldr min a) := by
  induction l with
  | nil => exact min_comm a b
  | cons c t ih =>
      rw [List.foldr_cons, List.foldr_cons, min_left_comm a c, ih,
        min_left_comm c b]

theorem foldr_rfMin_zeroToInf {K : Type} [LinearOrderedField K]
    (col : List K) :
    ((col.map zeroToInf).foldr rfMin .inf)
      = (match col.filter (fun x => decide (x ≠ 0)) with
        | [] => RFloat.inf
        | y :: ys => RFloat.fin (ys.foldr min y)) := by
  induction col with
  | nil => rfl
  | cons x rest ih =>
      rw [List.map_cons, List.foldr_cons, ih, List.filter_cons]
      by_cases hx : x = 0
      · rw [if_neg (by simpa using hx)]
        rw [show zeroToInf x = RFloat.inf from by simp [zeroToInf, hx]]
        cases hrf : rest.filter (fun x => decide (x ≠ 0)) with
        | nil => rfl
        | cons y ys => rfl
      · rw [if_pos (by simpa using hx)]
        rw [show zeroToInf x = RFloat.fin x from by simp [zeroToInf, hx]]
        cases hrf : rest.filter (fun x => decide (x ≠ 0)) with
        | nil => rfl
        | cons y ys =>
            show RFloat.fin (min x (ys.foldr min y))
              = RFloat.fin ((y :: ys).foldr min x)
            rw [List.foldr_cons, foldr_min_swap]

theorem colMin_pairwise {K : Type} [LinearOrderedField K] (sqrtFn : K → K)
    (centers : List (K × K)) (j : ℕ) (hj : j < centers.length) :
    colMin ((pairwise_distances sqrtFn centers).map
      (fun row => row.map zeroToInf)) j
      = ((centers.map (fun e => euclid sqrtFn e (centers.getD j (0, 0)))).map
          zeroToInf).foldr rfMin .inf := by
  unfold colMin
  congr 1
  unfold pairwise_distances
  rw [List.map_map, List.map_map, List.map_map]
  apply List.map_congr_left
  intro a _
  simp only [Function.comp_apply]
  rw [map_getD_of_lt zeroToInf _ j (by simpa using hj) 0 RFloat.inf]
  rw [map_getD_of_lt _ centers j hj (0, 0) 0]

/-- C5 (amended): after `ATOL.fit`, for every homology dimension: if the
cluster count is 1, the single center's inertia is half the maximum
pairwise distance among the pooled points; if the count is greater than 1,
each center's inertia is half the minimum of the nonzero distances from it
to the centers (i.e. half the distance to its nearest center at a distinct
position), and a center's inertia is infinite precisely when every center
coincides with it — not whenever it merely coincides with some other
center. -/
theorem C5_atol_inertias {K : Type} [LinearOrderedField K] (sqrtFn : K → K)
    (XdSub : List (K × K)) (centers : List (K × K)) (j : ℕ)
    (hsq : ∀ x : K, 0 ≤ x → (sqrtFn x = 0 ↔ x = 0))
    (hj : j < centers.length) :
    (centers.length = 1 →
      atol_inertias sqrtFn XdSub centers
        = [.fin ((((pairwise_distances sqrtFn XdSub).flatten).foldr max 0)
            / 2)]) ∧
    (1 < centers.length →
      ((∀ e ∈ centers, e = centers.getD j (0, 0)) →
        (atol_inertias sqrtFn XdSub centers).getD j .nan = .inf) ∧
      (∀ y ys,
        ((centers.map (fun e => euclid sqrtFn (centers.getD j (0, 0)) e)).filter
          (fun x => decide (x ≠ 0))) = y :: ys →
        (atol_inertias sqrtFn XdSub centers).getD j .nan
          = .fin (ys.foldr min y / 2)) ∧
      (((centers.map (fun e => euclid sqrtFn (centers.getD j (0, 0)) e)).filter
          (fun x => decide (x ≠ 0))) = [] ↔
        ∀ e ∈ centers, e = centers.getD j (0, 0))) := by
  have hsq0 : sqrtFn 0 = 0 := (hsq 0 (le_refl 0)).mpr rfl
  constructor
  · intro h1
    unfold atol_inertias
    rw [if_pos h1, fillDiag_pairwise sqrtFn hsq0 XdSub]
  · intro hgt
    have hne1 : centers.length ≠ 1 := by omega
    have hentry : (atol_inertias sqrtFn XdSub centers).getD j .nan
        = rhalf (colMin ((pairwise_distances sqrtFn centers).map
            (fun row => row.map zeroToInf)) j) := by
      unfold atol_inertias
      rw [if_neg hne1]
      exact range_map_getD _ _ _ hj _
    have hds : (centers.map (fun e => euclid sqrtFn e (centers.getD j (0, 0))))
        = (centers.map (fun e => euclid sqrtFn (centers.getD j (0, 0)) e)) :=
      List.map_congr_left (fun e _ => euclid_comm sqrtFn e _)
    have hcol := colMin_pairwise sqrtFn centers j hj
    rw [hds] at hcol
    have hiff : ((centers.map (fun e =>
        euclid sqrtFn (centers.getD j (0, 0)) e)).filter
          (fun x => decide (x ≠ 0))) = [] ↔
        ∀ e ∈ centers, e = centers.getD j (0, 0) := by
      rw [List.filter_eq_nil_iff]
      constructor
      · intro hnil e he
        have hx := hnil (euclid sqrtFn (centers.getD j (0, 0)) e)
          (List.mem_map_of_mem _ he)
        have h0 : euclid sqrtFn (centers.getD j (0, 0)) e = 0 := by
          simpa using hx
        exact ((euclid_eq_zero_iff sqrtFn hsq _ _).mp h0).symm
      · intro hall x hx
        obtain ⟨e, he, rfl⟩ := List.mem_map.mp hx
        have hee : e = centers.getD j (0, 0) := hall e he
        simp [hee, euclid_eq_zero_iff sqrtFn hsq, (euclid_eq_zero_iff
          sqrtFn hsq (centers.getD j (0, 0)) (centers.getD j (0, 0))).mpr rfl]
    refine ⟨?_, ?_, hiff⟩
    · intro hall
      rw [hentry, hcol, foldr_rfMin_zeroToInf, hiff.mpr hall]
      rfl
    · intro y ys hys
      rw [hentry, hcol, foldr_rfMin_zeroToInf, hys]
      rfl

/-- C5 counterexample: three fitted cluster centers at positions
`(0,0), (0,0), (1,0)` (center 0 coincides with center 1): the source's
inertia computation gives center 0 the finite inertia `1/2` — half its
distance to the non-coincident center `(1,0)` — not infinity, and not half
the (zero) distance to its nearest other center.  On the squared distances
occurring here (`0` and `1`) the modelled square root `fun x => x` agrees
with the exact Euclidean metric. -/
theorem C5_atol_inertias_counterexample :
    atol_inertias (fun x : ℚ => x) []
        [((0 : ℚ), (0 : ℚ)), ((0 : ℚ), (0 : ℚ)), ((1 : ℚ), (0 : ℚ))]
      = [.fin (1 / 2), .fin (1 / 2), .fin (1 / 2)] ∧
    ((([((0 : ℚ), (0 : ℚ)), ((0 : ℚ), (0 : ℚ)),
        ((1 : ℚ), (0 : ℚ))] : List (ℚ × ℚ)).getD 0 (9, 9))
      = (([((0 : ℚ), (0 : ℚ)), ((0 : ℚ), (0 : ℚ)),
        ((1 : ℚ), (0 : ℚ))] : List (ℚ × ℚ)).getD 1 (9, 9))) ∧
    (RFloat.fin ((1 : ℚ) / 2) ≠ .inf ∧ RFloat.fin ((1 : ℚ) / 2) ≠ .fin 0) := by
  refine ⟨?_, by norm_num, by constructor <;> simp⟩
  norm_num [atol_inertias, pairwise_distances, euclid, zeroToInf, colMin,
    rfMin, rhalf, List.range_succ, List.range_zero, min_def]

theorem C5_atol_inertias_witness :
    ((∀ x : ℚ, 0 ≤ x → ((fun x : ℚ => x) x = 0 ↔ x = 0)) ∧
      (0 < ([((0 : ℚ), (0 : ℚ)), ((3 : ℚ), (4 : ℚ))] : List (ℚ × ℚ)).length)) ∧
    ((([((0 : ℚ), (0 : ℚ)), ((3 : ℚ), (4 : ℚ))] : List (ℚ × ℚ)).length = 1 →
      atol_inertias (fun x : ℚ => x) ([] : List (ℚ × ℚ))
          [((0 : ℚ), (0 : ℚ)), ((3 : ℚ), (4 : ℚ))]
        = [.fin ((((pairwise_distances (fun x : ℚ => x)
            ([] : List (ℚ × ℚ))).flatten).foldr max 0) / 2)]) ∧
      (1 < ([((0 : ℚ), (0 : ℚ)), ((3 : ℚ), (4 : ℚ))] : List (ℚ × ℚ)).length →
        ((∀ e ∈ ([((0 : ℚ), (0 : ℚ)), ((3 : ℚ), (4 : ℚ))] : List (ℚ × ℚ)),
            e = ([((0 : ℚ), (0 : ℚ)), ((3 : ℚ), (4 : ℚ))] : List (ℚ × ℚ)).getD
              0 (0, 0)) →
          (atol_inertias (fun x : ℚ => x) ([] : List (ℚ × ℚ))
            [((0 : ℚ), (0 : ℚ)), ((3 : ℚ), (4 : ℚ))]).getD 0 .nan = .inf) ∧
        (∀ y ys,
          ((([((0 : ℚ), (0 : ℚ)), ((3 : ℚ), (4 : ℚ))] : List (ℚ × ℚ)).map
            (fun e => euclid (fun x : ℚ => x)
              (([((0 : ℚ), (0 : ℚ)), ((3 : ℚ), (4 : ℚ))] : List (ℚ × ℚ)).getD
                0 (0, 0)) e)).filter (fun x => decide (x ≠ 0))) = y :: ys →
          (atol_inertias (fun x : ℚ => x) ([] : List (ℚ × ℚ))
            [((0 : ℚ), (0 : ℚ)), ((3 : ℚ), (4 : ℚ))]).getD 0 .nan
              = .fin (ys.foldr min y / 2)) ∧
        (((([((0 : ℚ), (0 : ℚ)), ((3 : ℚ), (4 : ℚ))] : List (ℚ × ℚ)).map
            (fun e => euclid (fun x : ℚ => x)
              (([((0 : ℚ), (0 : ℚ)), ((3 : ℚ), (4 : ℚ))] : List (ℚ × ℚ)).getD
                0 (0, 0)) e)).filter (fun x => decide (x ≠ 0))) = [] ↔
          ∀ e ∈ ([((0 : ℚ), (0 : ℚ)), ((3 : ℚ), (4 : ℚ))] : List (ℚ × ℚ)),
            e = ([((0 : ℚ), (0 : ℚ)), ((3 : ℚ), (4 : ℚ))] : List (ℚ × ℚ)).getD
              0 (0, 0)))) :=
  ⟨⟨fun x _ => Iff.rfl, by norm_num⟩,
    C5_atol_inertias (fun x : ℚ => x) ([] : List (ℚ × ℚ))
      [((0 : ℚ), (0 : ℚ)), ((3 : ℚ), (4 : ℚ))] 0 (fun x _ => Iff.rfl)
      (by norm_num)⟩

theorem sum_map_const_nat {α : Type} (l : List α) (c : ℕ) :
    (l.map (fun _ => c)).sum = l.length * c := by
  induction l with
  | nil => simp
  | cons x xs ih => simp [ih, Nat.succ_mul, Nat.add_comm]

theorem sum_map_mul_left_nat {α : Type} (l : List α) (c : ℕ) (f : α → ℕ) :
    (l.map (fun x => c * f x)).sum = c * (l.map f).sum := by
  induction l with
  | nil => simp
  | cons x xs ih => simp [ih, Nat.mul_add]

theorem vectorize_length {K : Type} [LinearOrderedField K] (st : AtolState K)
    (XdSub : List (K × K)) (dim : ℤ) :
    (vectorize st XdSub dim).length = (st.cluster_centers dim).length := by
  simp only [vectorize, weight_one]
  generalize (XdSub.filter (fun p => decide (p.2 ≠ p.1))) = pts
  by_cases h : pts.isEmpty
  · rw [if_pos h]
    simp [List.length_zip]
  · rw [if_neg h]
    simp [List.length_zip, transposeRect]

/-- C6: for every fitted `ATOL` instance and every input batch, every row of
the `transform` output has length equal to the sum over all fitted homology
dimensions of that dimension's cluster count, independent of how many
points each sample has in each dimension (including none). -/
theorem C6_atol_row_length {K : Type} [LinearOrderedField K] (st : AtolState K)
    (njobs : ℕ) (X : List (List (Pt K))) (row : List K)
    (hrow : row ∈ atolTransform st njobs X) :
    row.length = (st.homology_dimensions.map
      (fun dim => (st.cluster_centers dim).length)).sum := by
  unfold atolTransform at hrow
  simp only at hrow
  obtain ⟨i, hi, rfl⟩ := List.mem_map.mp hrow
  have hiN : i < X.length := by simpa using hi
  have hN : 0 < X.length := Nat.lt_of_le_of_lt (Nat.zero_le i) hiN
  have hlen : ∀ dims : List ℤ,
      ((dims.map (fun dim =>
        X.map (fun x => vectorize st (subdiagramPoints x dim) dim))).flatten).flatten.length
      = X.length * (dims.map
        (fun dim => (st.cluster_centers dim).length)).sum := by
    intro dims
    induction dims with
    | nil => simp
    | cons dim rest ih =>
        simp only [List.map_cons, List.flatten_cons, List.flatten_append,
          List.length_append, ih]
        have hhead : (X.map (fun x =>
            vectorize st (subdiagramPoints x dim) dim)).flatten.length
            = X.length * (st.cluster_centers dim).length := by
          rw [List.length_flatten, List.map_map]
          have hc : X.map (List.length ∘ fun x =>
              vectorize st (subdiagramPoints x dim) dim)
              = X.map (fun _ => (st.cluster_centers dim).length) :=
            List.map_congr_left (fun x _ => vectorize_length st _ dim)
          rw [hc, sum_map_const_nat]
        rw [hhead, List.sum_cons, Nat.mul_add]
  rw [List.length_take, List.length_drop, hlen]
  set T := (st.homology_dimensions.map
    (fun dim => (st.cluster_centers dim).length)).sum with hT
  have hdiv : X.length * T / X.length = T := Nat.mul_div_cancel_left T hN
  rw [hdiv]
  have hsub : X.length * T - i * T = (X.length - i) * T := (Nat.sub_mul _ _ _).symm
  rw [hsub]
  have hle : T ≤ (X.length - i) * T := by
    have h1 : 1 ≤ X.length - i := by omega
    calc T = 1 * T := (Nat.one_mul T).symm
    _ ≤ (X.length - i) * T := Nat.mul_le_mul_right T h1
  exact Nat.min_eq_left hle

def C6wSt : AtolState ℚ :=
  { homology_dimensions := [0, 1]
    cluster_centers := fun dim => if dim = 0 then [(0, 0)] else [(5, 5), (6, 6)]
    inertias := fun _ => [RFloat.fin 1]
    contrast_function := fun pts _ _ => pts.map (fun p => [p.2, p.2]) }

def C6wX : List (List (Pt ℚ)) := [[⟨0, 1, 0⟩, ⟨0, 2, 1⟩]]

theorem C6_atol_row_length_witness :
    ([(1 : ℚ), 2, 2] ∈ atolTransform C6wSt 1 C6wX) ∧
    ([(1 : ℚ), 2, 2] : List ℚ).length = (C6wSt.homology_dimensions.map
      (fun dim => (C6wSt.cluster_centers dim).length)).sum :=
  ⟨by
    norm_num [atolTransform, vectorize, subdiagramPoints, subdiagrams, C6wSt,
      C6wX, transposeRect, weight_one, List.filter, List.range_succ,
      List.range_zero, List.filterMap_cons, Function.comp,
      List.zip_cons_cons, List.take_succ_cons, List.replicate_succ,
      List.replicate_zero],
    C6_atol_row_length C6wSt 1 C6wX [(1 : ℚ), 2, 2]
      (by
        norm_num [atolTransform, vectorize, subdiagramPoints, subdiagrams,
          C6wSt, C6wX, transposeRect, weight_one, List.filter,
          List.range_succ, List.range_zero, List.filterMap_cons,
          Function.comp, List.zip_cons_cons, List.take_succ_cons,
          List.replicate_succ, List.replicate_zero])⟩

/-- C7: for every fitted `ATOL` instance, a sample whose subdiagram for a
given homology dimension has no non-diagonal points left after dropping
zero-persistence points contributes, for that dimension, exactly the zero
vector of length equal to that dimension's cluster count — not an error
and not NaN (the output lives in the finite scalars by construction). -/
theorem C7_atol_empty_zero_vector {K : Type} [LinearOrderedField K]
    (st : AtolState K) (XdSub : List (K × K)) (dim : ℤ)
    (hempty : XdSub.filter (fun p => decide (p.2 ≠ p.1)) = []) :
    vectorize st XdSub dim
      = List.replicate (st.cluster_centers dim).length 0 := by
  simp only [vectorize, hempty, List.isEmpty_nil, if_true, weight_one,
    List.length_replicate, zip_replicate_self, List.map_replicate]
  norm_num

def C7wSt : AtolState ℚ :=
  { homology_dimensions := [0]
    cluster_centers := fun _ => [(1, 2), (3, 4), (5, 6)]
    inertias := fun _ => [RFloat.fin 1, RFloat.fin 1, RFloat.fin 1]
    contrast_function := fun pts _ _ => pts.map (fun p => [p.1, p.2, p.1]) }

theorem C7_atol_empty_zero_vector_witness :
    (([((2 : ℚ), (2 : ℚ)), ((7 : ℚ), (7 : ℚ))] : List (ℚ × ℚ)).filter
      (fun p => decide (p.2 ≠ p.1)) = []) ∧
    vectorize C7wSt [((2 : ℚ), (2 : ℚ)), ((7 : ℚ), (7 : ℚ))] 0
      = List.replicate (C7wSt.cluster_centers 0).length 0 :=
  ⟨by decide,
    C7_atol_empty_zero_vector C7wSt [((2 : ℚ), (2 : ℚ)), ((7 : ℚ), (7 : ℚ))] 0
      (by decide)⟩

/-- C8: for every fitted transformer state (`PersistenceEntropy`,
`Amplitude`, `ATOL`) and every input batch, the `transform` output with any
positive number of parallel slices equals the output with one slice: the
degree of parallelism enters only the slicing of the batch into contiguous
work units, and the reassembled result is identical. -/
theorem C8_njobs_invariance {K : Type} [LinearOrderedField K] (log2 : K → K)
    (pst : PEState K) (ast : AmpState K) (tst : AtolState K) (njobs : ℕ)
    (X1 X2 X3 : List (List (Pt K))) (hj : 1 ≤ njobs) :
    peTransform log2 pst njobs X1 = peTransform log2 pst 1 X1 ∧
    ampTransform ast njobs X2 = ampTransform ast 1 X2 ∧
    atolTransform tst njobs X3 = atolTransform tst 1 X3 := by
  refine ⟨?_, ?_, rfl⟩
  · unfold peTransform
    simp only [peFlat_eq log2 pst njobs X1 hj,
      peFlat_eq log2 pst 1 X1 (le_refl 1)]
  · have h : parallel_amplitude ast njobs X2 = parallel_amplitude ast 1 X2 := by
      unfold parallel_amplitude
      simp only [doubleFlat_slices ast.homology_dimensions
        (fun dim x => ast.kernel (subdiagrams x dim) dim) X2 njobs hj,
        doubleFlat_slices ast.homology_dimensions
        (fun dim x => ast.kernel (subdiagrams x dim) dim) X2 1 (le_refl 1)]
    unfold ampTransform
    rw [h]

/-- State-passing form of `PersistenceEntropy.transform`: the source method
reads the fitted attributes and assigns none (`features.py`, lines
141-180), so the post-call state is the input state unchanged. -/
def peTransformS {K : Type} [LinearOrderedField K] (log2 : K → K)
    (st : PEState K) (njobs : ℕ) (X : List (List (Pt K))) :
    List (List (RFloat K)) × PEState K :=
  (peTransform log2 st njobs X, st)

/-- State-passing form of `Amplitude.transform`: the source method reads
`effective_metric_params_`, `homology_dimensions_` and `order` and assigns
no attribute (`features.py`, lines 356-392). -/
def ampTransformS {K : Type} [LinearOrderedField K] (st : AmpState K)
    (njobs : ℕ) (X : List (List (Pt K))) : List (List K) × AmpState K :=
  (ampTransform st njobs X, st)

/-- State-passing form of `ATOL.transform`: the source method reads the
fitted cluster centers and inertias and assigns no attribute
(`features.py`, lines 566-597). -/
def atolTransformS {K : Type} [LinearOrderedField K] (st : AtolState K)
    (njobs : ℕ) (X : List (List (Pt K))) : List (List K) × AtolState K :=
  (atolTransform st njobs X, st)

/-- C9: for every fitted transformer state (`PersistenceEntropy`,
`Amplitude`, `ATOL`), `transform` leaves the fit-time state (homology
dimensions, effective metric parameters and order, cluster centers and
inertias) unchanged, and calling it a second time on the state returned by
the first call and the same input yields an identical output: each
transform call is a pure function of the frozen fit-state and the input. -/
theorem C9_transform_pure {K : Type} [LinearOrderedField K] (log2 : K → K)
    (pst : PEState K) (ast : AmpState K) (tst : AtolState K) (njobs : ℕ)
    (X1 X2 X3 : List (List (Pt K))) :
    ((peTransformS log2 pst njobs X1).2 = pst ∧
      (peTransformS log2 (peTransformS log2 pst njobs X1).2 njobs X1).1
        = (peTransformS log2 pst njobs X1).1) ∧
    ((ampTransformS ast njobs X2).2 = ast ∧
      (ampTransformS (ampTransformS ast njobs X2).2 njobs X2).1
        = (ampTransformS ast njobs X2).1) ∧
    ((atolTransformS tst njobs X3).2 = tst ∧
      (atolTransformS (atolTransformS tst njobs X3).2 njobs X3).1
        = (atolTransformS tst njobs X3).1) :=
  ⟨⟨rfl, rfl⟩, ⟨rfl, rfl⟩, ⟨rfl, rfl⟩⟩

def C8wlog2 : ℚ → ℚ := fun q => q - 1

def C8wpst : PEState ℚ :=
  { normalize := false, nan_fill_value := some (-1), homology_dimensions := [0, 1] }

def C8wast : AmpState ℚ :=
  { homology_dimensions := [0, 1]
    order := some (AOrder.pos 2)
    kernel := fun sd _ => (sd.map (fun p => p.d - p.b)).sum
    rpow := fun a b => a * b }

def C8wtst : AtolState ℚ :=
  { homology_dimensions := [0, 1]
    cluster_centers := fun _ => [(0, 0)]
    inertias := fun _ => [RFloat.fin 1]
    contrast_function := fun pts _ _ => pts.map (fun p => [p.1 + p.2]) }

def C8wX : List (List (Pt ℚ)) :=
  [[⟨0, 1, 0⟩, ⟨0, 3, 1⟩], [⟨1, 2, 0⟩, ⟨0, 5, 1⟩], [⟨2, 2, 0⟩, ⟨1, 4, 1⟩]]

theorem C8_njobs_invariance_witness :
    (1 ≤ 3) ∧
    (peTransform C8wlog2 C8wpst 3 C8wX = peTransform C8wlog2 C8wpst 1 C8wX ∧
      ampTransform C8wast 3 C8wX = ampTransform C8wast 1 C8wX ∧
      atolTransform C8wtst 3 C8wX = atolTransform C8wtst 1 C8wX) :=
  ⟨by norm_num,
    C8_njobs_invariance C8wlog2 C8wpst C8wast C8wtst 3 C8wX C8wX C8wX
      (by norm_num)⟩
